import Mathlib

set_option linter.unusedSectionVars false

set_option linter.unusedVariables false

deriving instance DecidableEq for Except

/-!
# Verification of the sfgad core against its specification

The repository ships example notebooks that drive the sfgad library:
`graph_scan.scan`, `Analyzer.fit_transform`, the `Gaussian` probability
estimator, the `SelectedFeatureProbability` combiner and the history store.
The library code itself is not part of the checked sources, so every
component below is modelled from the specification and settled against
that model.

The scan statistic of the graph scan is a maximum of log-likelihood-ratio
terms.  To keep the whole search executable in exact arithmetic, the
statistic is represented here by its exponential, a positive rational:
`log` is strictly monotone, so maximising the exponential form is the same
search, the stopping rule "no addition increases the score" is unchanged,
and the real-valued score returned to the caller is `Real.log` of the
rational representation (score `0` corresponds to representation `1`).
-/

namespace SfGad

/-! ## Graph scan: data and algorithm -/

variable {V : Type} [DecidableEq V]

/-- Error raised by the graph scan on a window with no vertices. -/
inductive ScanError where
  | emptyGraph
deriving DecidableEq, Repr

/-- Modelled from the spec: the window's edge graph is an edge list with
undirected equivalence, so `u` and `v` are adjacent when either orientation
of the pair occurs among the edges. -/
def adjB (edges : List (V × V)) (u v : V) : Bool :=
  decide ((u, v) ∈ edges) || decide ((v, u) ∈ edges)

/-- Modelled from the spec: the per-vertex p-value table of the scan input;
`pvOf rows v` looks the vertex up in the table (vertices outside the table
do not occur in the scan, the default is irrelevant). -/
def pvOf (rows : List (V × ℚ)) : V → ℚ :=
  fun v => ((rows.find? (fun r => decide (r.1 = v))).map Prod.snd).getD 1

/-- Modelled from the spec: vertices of the window whose p-value is at most
the significance ceiling; only these may seed or join a result set. -/
def eligibleOf (verts : List V) (pv : V → ℚ) (amax : ℚ) : List V :=
  verts.filter (fun v => decide (pv v ≤ amax))

/-- Insertion step of the stable ranking of vertices by ascending p-value. -/
def insertRanked (pv : V → ℚ) (v : V) : List V → List V
  | [] => [v]
  | u :: us => if pv v ≤ pv u then v :: u :: us else u :: insertRanked pv v us

/-- Stable sort of a vertex list by ascending p-value (insertion sort). -/
def rankByP (pv : V → ℚ) (l : List V) : List V :=
  l.foldr (insertRanked pv) []

/-- Modelled from the spec: the `K` lowest-p-value vertices among the
eligible ones are the seeds of the local searches. -/
def seedsOf (verts : List V) (pv : V → ℚ) (amax : ℚ) (K : ℕ) : List V :=
  (rankByP pv (eligibleOf verts pv amax)).take K

/-- Number of vertices of `S` with p-value at most `a`. -/
def nBelow (pv : V → ℚ) (S : List V) (a : ℚ) : ℕ :=
  (S.filter (fun v => decide (pv v ≤ a))).length

/-- Modelled from the spec: exponential form of the Kulldorff/NPHGS scan
statistic of `S` at detection threshold `a`.  With `N = |S|` and
`m = N_a` the statistic is `m·log(m/(N·a)) + (N−m)·log((N−m)/(N·(1−a)))`;
its exponential is the product of powers below.  The statistic falls back
to `0` (representation `1`) when `m = 0`, and the vanishing second term is
dropped when `m = N` (the `0·log 0 = 0` convention), which is the reading
forced by the end-to-end scenario of the spec. -/
def statExp (pv : V → ℚ) (S : List V) (a : ℚ) : ℚ :=
  if nBelow pv S a = 0 then 1
  else
    ((nBelow pv S a : ℚ) / (S.length * a)) ^ nBelow pv S a *
      (if nBelow pv S a = S.length then 1
       else (((S.length - nBelow pv S a : ℕ) : ℚ) / (S.length * (1 - a))) ^
         (S.length - nBelow pv S a))

/-- Modelled from the spec: the admissible detection thresholds for `S` are
the distinct p-values occurring within `S` that are at most `alpha_max`. -/
def alphasIn (pv : V → ℚ) (amax : ℚ) (S : List V) : List ℚ :=
  ((S.map pv).filter (fun a => decide (a ≤ amax))).dedup

/-- Modelled from the spec: exponential form of the scan statistic of `S`,
the maximum of `statExp` over the admissible thresholds (at least `1`,
i.e. score at least `0`). -/
def scoreExp (pv : V → ℚ) (amax : ℚ) (S : List V) : ℚ :=
  (alphasIn pv amax S).foldl (fun acc a => max acc (statExp pv S a)) 1

/-- Modelled from the spec: the expansion candidates of the current subset
`S` are the vertices outside `S` adjacent to some member of `S` whose
p-value is at most `alpha_max`. -/
def candidatesOf (verts : List V) (edges : List (V × V)) (pv : V → ℚ)
    (amax : ℚ) (S : List V) : List V :=
  verts.filter (fun v =>
    decide (v ∉ S) && S.any (fun u => adjB edges u v) && decide (pv v ≤ amax))

/-- First element of `l` attaining the maximal value of `f`, with that
value; `none` on the empty list. -/
def bestBy (f : V → ℚ) : List V → Option (V × ℚ)
  | [] => none
  | v :: vs => some (vs.foldl (fun acc u => if f u > acc.2 then (u, f u) else acc) (v, f v))

/-- Modelled from the spec: greedy growth of a seeded subset.  Each step
evaluates every candidate adjacent vertex, commits the single addition
yielding the largest score increase, and stops when no candidate addition
increases the score.  `fuel` bounds the number of additions (the vertex
count of the window suffices, since each step consumes a fresh vertex). -/
def grow (verts : List V) (edges : List (V × V)) (pv : V → ℚ) (amax : ℚ) :
    ℕ → List V → List V
  | 0, S => S
  | fuel + 1, S =>
    match bestBy (fun v => scoreExp pv amax (v :: S)) (candidatesOf verts edges pv amax S) with
    | none => S
    | some (v, sc) => if scoreExp pv amax S < sc then grow verts edges pv amax fuel (v :: S) else S

/-- The subgraph grown from seed `sd` together with its score representation. -/
def grownOf (verts : List V) (edges : List (V × V)) (pv : V → ℚ) (amax : ℚ)
    (sd : V) : List V × ℚ :=
  (grow verts edges pv amax verts.length [sd],
   scoreExp pv amax (grow verts edges pv amax verts.length [sd]))

/-- Lowest p-value within `S` (junk `0` on the empty list, never used). -/
def minP (pv : V → ℚ) : List V → ℚ
  | [] => 0
  | v :: vs => vs.foldl (fun acc u => min acc (pv u)) (pv v)

/-- Modelled from the spec: the documented tie-break of the final pick —
`a` beats `b` on strictly larger score, then on smaller size, then on
lower minimum p-value. -/
def betterR (pv : V → ℚ) (a b : List V × ℚ) : Bool :=
  decide (b.2 < a.2) ||
    (decide (a.2 = b.2) &&
      (decide (a.1.length < b.1.length) ||
        (decide (a.1.length = b.1.length) && decide (minP pv a.1 < minP pv b.1))))

/-- Fold of the final pick: the first of `g :: gs` under `betterR`,
earlier entries winning remaining ties. -/
def pickBest (pv : V → ℚ) (g : List V × ℚ) (gs : List (List V × ℚ)) : List V × ℚ :=
  gs.foldl (fun acc c => if betterR pv c acc then c else acc) g

/-- Modelled from the spec: the graph scan over an explicit vertex list.
Fails with `EmptyGraphError` on a window with no vertices; returns the
empty result with score `0` (representation `1`) when no vertex is
eligible; otherwise grows one subset per seed and returns the best. -/
def scanCore (verts : List V) (edges : List (V × V)) (pv : V → ℚ) (amax : ℚ)
    (K : ℕ) : Except ScanError (List V × ℚ) :=
  if verts.isEmpty then .error .emptyGraph
  else
    match seedsOf verts pv amax K with
    | [] => .ok ([], 1)
    | s :: ss =>
      .ok (pickBest pv (grownOf verts edges pv amax s) (ss.map (grownOf verts edges pv amax)))

/-- Modelled from the spec: `graph_scan.scan` — the window's edge list plus
the analyzer's p-value table; the window's vertices are the table's rows.
The second component of a successful result is the exponential
representation of the score. -/
def scanExp (edges : List (V × V)) (rows : List (V × ℚ)) (amax : ℚ) (K : ℕ) :
    Except ScanError (List V × ℚ) :=
  scanCore (rows.map Prod.fst) edges (pvOf rows) amax K

/-- The scan with the real-valued score the caller receives:
`Real.log` of the exponential representation. -/
noncomputable def scanScore (edges : List (V × V)) (rows : List (V × ℚ))
    (amax : ℚ) (K : ℕ) : Except ScanError (List V × ℝ) :=
  (scanExp edges rows amax K).map (fun r => (r.1, Real.log (r.2 : ℝ)))

/-- One step of reachability inside the vertex subset `S`. -/
def stepIn (edges : List (V × V)) (S : List V) (a b : V) : Prop :=
  b ∈ S ∧ adjB edges a b = true

/-- Modelled from the spec: connectivity of the subgraph induced by `S` in
the window's edge graph — every two members of `S` are joined by a path
staying inside `S` (so the induced subgraph has no isolated components). -/
def ConnectedIn (edges : List (V × V)) (S : List V) : Prop :=
  ∀ u ∈ S, ∀ v ∈ S, Relation.ReflTransGen (stepIn edges S) u v

/-! ## History store -/

/-- Error raised on violation of the history uniqueness invariant. -/
inductive HistoryError where
  | duplicateObservation
deriving DecidableEq, Repr

/-- Modelled from the spec: an observation — (vertex identity, window
index, feature identity, numeric value), immutable once written. -/
structure Observation (V : Type) where
  vertex : V
  window : ℕ
  feature : ℕ
  value : ℚ
deriving DecidableEq

/-- Collision of the (vertex, window, feature) key of two observations. -/
def sameTripleB (a b : Observation V) : Bool :=
  decide (a.vertex = b.vertex) && decide (a.window = b.window) && decide (a.feature = b.feature)

/-- Modelled from the spec: `record` appends an observation to the store
and fails with `DuplicateObservationError` when the (vertex, window,
feature) triple already exists. -/
def record (h : List (Observation V)) (o : Observation V) :
    Except HistoryError (List (Observation V)) :=
  if h.any (fun p => sameTripleB p o) then .error .duplicateObservation
  else .ok (h ++ [o])

/-- Sequential recording of a batch of observations. -/
def recordAll (h : List (Observation V)) :
    List (Observation V) → Except HistoryError (List (Observation V))
  | [] => .ok h
  | o :: os =>
    match record h o with
    | .error e => .error e
    | .ok h2 => recordAll h2 os

/-- Modelled from the spec: `query(vertex, feature, window_predicate)`
returns the stored observations of the vertex and feature whose window
index satisfies the predicate, in store order. -/
def query (h : List (Observation V)) (v : V) (f : ℕ) (pred : ℕ → Bool) :
    List (Observation V) :=
  h.filter (fun o => decide (o.vertex = v) && decide (o.feature = f) && pred o.window)

/-! ## Probability estimation -/

/-- Error raised when too few reference observations are available. -/
inductive EstimationError where
  | insufficientData
deriving DecidableEq, Repr

/-- Total weight of a weighted reference set (value, weight) pairs. -/
def wsum (refs : List (ℚ × ℚ)) : ℚ :=
  (refs.map Prod.snd).sum

/-- Weighted mean of the reference values. -/
def wmean (refs : List (ℚ × ℚ)) : ℚ :=
  (refs.map (fun r => r.2 * r.1)).sum / wsum refs

/-- Weighted variance (squared weighted standard deviation) of the
reference values. -/
def wvar (refs : List (ℚ × ℚ)) : ℚ :=
  (refs.map (fun r => r.2 * (r.1 - wmean refs) ^ 2)).sum / wsum refs

/-- Modelled from the spec: the parametric Gaussian estimator.  In strict
mode it fails with `InsufficientDataError` when fewer than two distinct
reference values are available.  Otherwise: with no references it degrades
to p-value `1`; when the weighted standard deviation is zero (all
reference values identical) it returns `1` if the current value equals
the common value and `0` if it differs, consulting no z-score; in the
nondegenerate case it standardises the current value and applies `tail`,
the transcendental map from the squared standardised deviation to the
two-tailed tail probability, supplied as a parameter. -/
def gaussian (tail : ℚ → ℚ) (strictMode : Bool) (x : ℚ) (refs : List (ℚ × ℚ)) :
    Except EstimationError ℚ :=
  if strictMode = true ∧ (refs.map Prod.fst).dedup.length < 2 then .error .insufficientData
  else
    match (refs.map Prod.fst).dedup with
    | [] => .ok 1
    | [c] => .ok (if x = c then 1 else 0)
    | _ => .ok (tail ((x - wmean refs) ^ 2 / wvar refs))

/-! ## Probability combination -/

/-- Error raised on invalid component composition. -/
inductive ConfigurationError where
  | invalidComposition
deriving DecidableEq, Repr

/-- Modelled from the spec: the pass-through combiner for a single
configured feature — returns its single p-value unchanged and fails with
`ConfigurationError` when the input is not a single p-value. -/
def selectedFeatureProbability (ps : List ℚ) : Except ConfigurationError ℚ :=
  match ps with
  | [p] => .ok p
  | _ => .error .invalidComposition

/-- Modelled from the spec: the minimum combiner (`1` joins the fold as
the neutral ceiling of p-values). -/
def minimumProbability (ps : List ℚ) : Except ConfigurationError ℚ :=
  .ok (ps.foldl min 1)

/-- Modelled from the spec: the arithmetic-mean combiner. -/
def averageProbability (ps : List ℚ) : Except ConfigurationError ℚ :=
  .ok (ps.sum / (ps.length : ℚ))

/-- Modelled from the spec: Fisher's method.  The χ² statistic is
`−2·Σ ln pᵢ`; `lnQ` stands for the natural logarithm and `sf` for the χ²
survival function with `2k` degrees of freedom, both transcendental and
supplied as parameters. -/
def fisherMethod (sf : ℚ → ℚ) (lnQ : ℚ → ℚ) (ps : List ℚ) :
    Except ConfigurationError ℚ :=
  .ok (sf (-2 * (ps.map lnQ).sum))

/-- Modelled from the spec: Stouffer's method.  `probit` stands for the
inverse-normal transform, `sqrtk` for `√k`, and `nsf` for the normal
survival function, all supplied as parameters. -/
def stouffersMethod (nsf : ℚ → ℚ) (probit : ℚ → ℚ) (sqrtk : ℚ) (ps : List ℚ) :
    Except ConfigurationError ℚ :=
  .ok (nsf ((ps.map probit).sum / sqrtk))

/-! ## Analyzer -/

/-- Modelled from the spec: an edge of a window's labelled edge list —
source, destination, categorical edge-type tag and timestamp. -/
structure Edge (V : Type) where
  src : V
  dst : V
  etype : ℕ
  timestamp : ℕ
deriving DecidableEq

/-- Modelled from the spec: a feature extractor — a feature identity and a
deterministic map from the window's edge list and a vertex to a numeric
value. -/
structure FeatureExtractor (V : Type) where
  fid : ℕ
  extract : List (Edge V) → V → ℚ

/-- Modelled from the spec: the vertex-degree feature — the count of
incident edges in the window's edge list (a self-loop counts once, the
documented fixed convention). -/
def vertexDegree : FeatureExtractor V :=
  ⟨0, fun es v => ((es.filter (fun e => decide (e.src = v) || decide (e.dst = v))).length : ℚ)⟩

/-- The vertices present in a window: the endpoints of its edges, each
listed once. -/
def presentVertices (es : List (Edge V)) : List V :=
  ((es.map Edge.src) ++ (es.map Edge.dst)).dedup

/-- Modelled from the spec: `HistoricSameSelection` — all observations of
the same vertex from strictly earlier windows. -/
def historicSameSelection (v : V) (n : ℕ) (h : List (Observation V)) :
    List (Observation V) :=
  h.filter (fun o => decide (o.vertex = v) && decide (o.window < n))

/-- Modelled from the spec: the constant weighting function. -/
def constantWeight (_ : Observation V) (_ : ℕ) : ℚ := 1

/-- Modelled from the spec: the component composition of an analyzer —
features, reference selection rule, weighting function, probability
estimator and probability combiner. -/
structure AnalyzerConfig (V : Type) where
  features : List (FeatureExtractor V)
  selector : V → ℕ → List (Observation V) → List (Observation V)
  weighting : Observation V → ℕ → ℚ
  estimator : ℚ → List (ℚ × ℚ) → Except EstimationError ℚ
  combiner : List ℚ → Except ConfigurationError ℚ

/-- The analyzer's state: the history store it owns and the index it will
assign to the next processed window. -/
structure AnalyzerState (V : Type) where
  history : List (Observation V)
  windowCount : ℕ
deriving DecidableEq

/-- The state of a freshly constructed analyzer. -/
def initState : AnalyzerState V := ⟨[], 0⟩

/-- Modelled from the spec: a row of the analyzer's output table — vertex
name, window index and combined p-value. -/
structure PValueRecord (V : Type) where
  name : V
  timeWindow : ℕ
  pValue : ℚ
deriving DecidableEq

/-- The p-value of one feature of one vertex: extract the value, select
the reference observations of this feature from the history, weight them,
and estimate.  A per-vertex estimator failure is emitted as the sentinel
p-value `1` (the documented propagation policy). -/
def featurePValue (cfg : AnalyzerConfig V) (hist : List (Observation V)) (n : ℕ)
    (es : List (Edge V)) (v : V) (φ : FeatureExtractor V) : ℚ :=
  match cfg.estimator (φ.extract es v)
      ((cfg.selector v n (hist.filter (fun o => decide (o.feature = φ.fid)))).map
        (fun o => (o.value, cfg.weighting o n))) with
  | .ok p => p
  | .error _ => 1

/-- The combined p-value of one vertex: fuse the per-feature p-values; a
combination failure is emitted as the sentinel p-value `1`. -/
def combinedPValue (cfg : AnalyzerConfig V) (hist : List (Observation V)) (n : ℕ)
    (es : List (Edge V)) (v : V) : ℚ :=
  match cfg.combiner (cfg.features.map (featurePValue cfg hist n es v)) with
  | .ok p => p
  | .error _ => 1

/-- The observations a window contributes to the history: one per present
vertex and configured feature, keyed to window index `n`. -/
def windowObservations (cfg : AnalyzerConfig V) (n : ℕ) (es : List (Edge V)) :
    List (Observation V) :=
  (presentVertices es).foldr
    (fun v acc => (cfg.features.map (fun φ => ⟨v, n, φ.fid, φ.extract es v⟩)) ++ acc) []

/-- Modelled from the spec: `fit_transform` — the analyzer's single public
operation per window.  It records the window's feature observations into
the history it owns, scores every present vertex against the updated
history, emits one row per present vertex labelled with the window index
the analyzer assigns (sequential from `0`), and advances that index.
Every call, including one made only to evaluate a window, runs this same
path. -/
def fitTransform (cfg : AnalyzerConfig V) (st : AnalyzerState V) (es : List (Edge V)) :
    List (PValueRecord V) × AnalyzerState V :=
  ((presentVertices es).map
      (fun v => ⟨v, st.windowCount,
        combinedPValue cfg (st.history ++ windowObservations cfg st.windowCount es)
          st.windowCount es v⟩),
   ⟨st.history ++ windowObservations cfg st.windowCount es, st.windowCount + 1⟩)

/-- Sequential processing of a stream of windows by `fitTransform`. -/
def processAll (cfg : AnalyzerConfig V) :
    AnalyzerState V → List (List (Edge V)) →
      List (List (PValueRecord V)) × AnalyzerState V
  | st, [] => ([], st)
  | st, es :: rest =>
    ((fitTransform cfg st es).1 :: (processAll cfg (fitTransform cfg st es).2 rest).1,
     (processAll cfg (fitTransform cfg st es).2 rest).2)

/-! ## Concrete instances used by the scenario claims -/

/-- Edge list of the end-to-end scenario window: vertices `0..4` standing
for `A..E`, edges `A–B`, `B–C`, `C–D`; `E` is isolated. -/
def scnEdges : List (ℕ × ℕ) := [(0, 1), (1, 2), (2, 3)]

/-- P-value table of the end-to-end scenario:
`A:0.01, B:0.02, C:0.5, D:0.9, E:0.6`. -/
def scnRows : List (ℕ × ℚ) := [(0, 1/100), (1, 2/100), (2, 1/2), (3, 9/10), (4, 6/10)]

/-- Edge list of the monotonicity counterexample window. -/
def monoEdges : List (ℕ × ℕ) := [(1, 2), (1, 3), (0, 3), (2, 3), (0, 1)]

/-- P-value table of the monotonicity counterexample window. -/
def monoRows : List (ℕ × ℚ) := [(0, 4/5), (1, 9/10), (2, 4/5), (3, 3/5)]

/-- A p-value table in which no vertex is eligible at `alpha_max = 1/5`. -/
def noEligRows : List (ℕ × ℚ) := [(0, 1/2), (1, 3/4)]

/-- A small history store holding one observation. -/
def demoStore : List (Observation ℕ) := [⟨0, 0, 0, 5⟩]

/-- An observation colliding with the (vertex, window, feature) triple
already present in `demoStore`. -/
def demoDup : Observation ℕ := ⟨0, 0, 0, 7⟩

/-- Three observations of vertex `1`, feature `0`, with pairwise distinct
windows. -/
def demoFresh : List (Observation ℕ) := [⟨1, 0, 0, 3⟩, ⟨1, 1, 0, 4⟩, ⟨1, 2, 0, 9⟩]

/-- The analyzer composition of the worked example: vertex degree,
historic-same selection, constant weighting, graceful Gaussian estimation
(with the constant `1/2` standing in for the tail-probability map), and
pass-through combination. -/
def demoConfig : AnalyzerConfig ℕ :=
  ⟨[vertexDegree], historicSameSelection, constantWeight,
    gaussian (fun _ => 1/2) false, selectedFeatureProbability⟩

/-- A concrete window: edges `0–1` and `1–2`. -/
def demoWindow : List (Edge ℕ) := [⟨0, 1, 0, 0⟩, ⟨1, 2, 0, 0⟩]

/-- A two-window stream fed to the analyzer. -/
def demoStream : List (List (Edge ℕ)) :=
  [[⟨0, 1, 0, 0⟩, ⟨1, 2, 0, 0⟩], [⟨0, 1, 0, 1⟩]]

/-! ## Helper lemmas on the graph scan -/

theorem adjB_symm (edges : List (V × V)) (u v : V) : adjB edges u v = adjB edges v u := by
  simp [adjB, Bool.or_comm]

theorem mem_insertRanked {pv : V → ℚ} {x v : V} {l : List V} :
    x ∈ insertRanked pv v l ↔ x = v ∨ x ∈ l := by
  induction l with
  | nil => simp [insertRanked]
  | cons u us ih =>
    simp only [insertRanked]
    split
    · simp
    · simp only [List.mem_cons, ih]
      tauto

theorem mem_rankByP {pv : V → ℚ} {x : V} {l : List V} :
    x ∈ rankByP pv l ↔ x ∈ l := by
  unfold rankByP
  induction l with
  | nil => simp
  | cons v vs ih =>
    simp only [List.foldr_cons, mem_insertRanked, List.mem_cons, ih]

theorem seedsOf_pv_le {verts : List V} {pv : V → ℚ} {amax : ℚ} {K : ℕ} {s : V}
    (h : s ∈ seedsOf verts pv amax K) : pv s ≤ amax := by
  unfold seedsOf at h
  have h1 : s ∈ rankByP pv (eligibleOf verts pv amax) := List.take_subset _ _ h
  rw [mem_rankByP] at h1
  unfold eligibleOf at h1
  rw [List.mem_filter] at h1
  exact of_decide_eq_true h1.2

theorem mem_candidatesOf {verts : List V} {edges : List (V × V)} {pv : V → ℚ}
    {amax : ℚ} {S : List V} {v : V} (h : v ∈ candidatesOf verts edges pv amax S) :
    v ∉ S ∧ (∃ u ∈ S, adjB edges u v = true) ∧ pv v ≤ amax := by
  unfold candidatesOf at h
  rw [List.mem_filter] at h
  obtain ⟨-, hcond⟩ := h
  simp only [Bool.and_eq_true, decide_eq_true_eq, List.any_eq_true] at hcond
  exact ⟨hcond.1.1, hcond.1.2, hcond.2⟩

theorem foldl_best_mem (f : V → ℚ) (l : List V) (acc : V × ℚ) :
    (l.foldl (fun acc u => if f u > acc.2 then (u, f u) else acc) acc).1 = acc.1 ∨
      (l.foldl (fun acc u => if f u > acc.2 then (u, f u) else acc) acc).1 ∈ l := by
  induction l generalizing acc with
  | nil => exact Or.inl rfl
  | cons u us ih =>
    simp only [List.foldl_cons]
    rcases ih (if f u > acc.2 then (u, f u) else acc) with h | h
    · rw [h]
      by_cases hc : f u > acc.2
      · simp [hc]
      · simp [hc]
    · exact Or.inr (List.mem_cons_of_mem _ h)

theorem bestBy_mem {f : V → ℚ} {l : List V} {p : V × ℚ}
    (h : bestBy f l = some p) : p.1 ∈ l := by
  cases l with
  | nil => simp [bestBy] at h
  | cons v vs =>
    simp only [bestBy, Option.some.injEq] at h
    have h1 := foldl_best_mem f vs (v, f v)
    rw [h] at h1
    rcases h1 with h1 | h1
    · rw [h1]
      exact List.mem_cons_self _ _
    · exact List.mem_cons_of_mem _ h1

theorem connectedIn_nil (edges : List (V × V)) : ConnectedIn edges ([] : List V) := by
  intro u hu
  cases hu

theorem connectedIn_singleton (edges : List (V × V)) (s : V) :
    ConnectedIn edges [s] := by
  intro u hu v hv
  rw [List.mem_singleton] at hu hv
  rw [hu, hv]

theorem linked_mono {edges : List (V × V)} {S : List V} {w u v : V}
    (h : Relation.ReflTransGen (stepIn edges S) u v) :
    Relation.ReflTransGen (stepIn edges (w :: S)) u v :=
  Relation.ReflTransGen.mono
    (fun _ _ hab => ⟨List.mem_cons_of_mem _ hab.1, hab.2⟩) h

theorem connectedIn_cons {edges : List (V × V)} {S : List V} {u₀ v : V}
    (hconn : ConnectedIn edges S) (hu₀ : u₀ ∈ S) (hadj : adjB edges u₀ v = true) :
    ConnectedIn edges (v :: S) := by
  have toV : ∀ x ∈ S, Relation.ReflTransGen (stepIn edges (v :: S)) x v := by
    intro x hx
    exact (linked_mono (hconn x hx u₀ hu₀)).tail ⟨List.mem_cons_self _ _, hadj⟩
  have fromV : ∀ x ∈ S, Relation.ReflTransGen (stepIn edges (v :: S)) v x := by
    intro x hx
    refine Relation.ReflTransGen.head ⟨List.mem_cons_of_mem _ hu₀, ?_⟩
      (linked_mono (hconn u₀ hu₀ x hx))
    rw [adjB_symm]
    exact hadj
  intro x hx y hy
  rcases List.mem_cons.1 hx with rfl | hx2 <;> rcases List.mem_cons.1 hy with h | hy2
  · rw [h]
  · exact fromV y hy2
  · rw [h]; exact toV x hx2
  · exact linked_mono (hconn x hx2 y hy2)

theorem grow_invariant (verts : List V) (edges : List (V × V)) (pv : V → ℚ)
    (amax : ℚ) (fuel : ℕ) (S : List V) (hconn : ConnectedIn edges S)
    (hpv : ∀ v ∈ S, pv v ≤ amax) :
    ConnectedIn edges (grow verts edges pv amax fuel S) ∧
      ∀ v ∈ grow verts edges pv amax fuel S, pv v ≤ amax := by
  induction fuel generalizing S with
  | zero => exact ⟨hconn, hpv⟩
  | succ n ih =>
    rw [grow]
    cases hb : bestBy (fun v => scoreExp pv amax (v :: S)) (candidatesOf verts edges pv amax S) with
    | none => exact ⟨hconn, hpv⟩
    | some p =>
      obtain ⟨v, sc⟩ := p
      dsimp only
      by_cases hlt : scoreExp pv amax S < sc
      · rw [if_pos hlt]
        have hv := bestBy_mem hb
        obtain ⟨-, ⟨u, hu, hadj⟩, hple⟩ := mem_candidatesOf hv
        refine ih (v :: S) (connectedIn_cons hconn hu hadj) ?_
        intro x hx
        rcases List.mem_cons.1 hx with rfl | hx2
        · exact hple
        · exact hpv x hx2
      · rw [if_neg hlt]
        exact ⟨hconn, hpv⟩

theorem foldl_pick_mem (pv : V → ℚ) (gs : List (List V × ℚ)) (acc : List V × ℚ) :
    gs.foldl (fun acc c => if betterR pv c acc then c else acc) acc = acc ∨
      gs.foldl (fun acc c => if betterR pv c acc then c else acc) acc ∈ gs := by
  induction gs generalizing acc with
  | nil => exact Or.inl rfl
  | cons g rest ih =>
    simp only [List.foldl_cons]
    rcases ih (if betterR pv g acc then g else acc) with h | h
    · rw [h]
      by_cases hc : betterR pv g acc
      · rw [if_pos hc]
        exact Or.inr (List.mem_cons_self _ _)
      · rw [if_neg hc]
        exact Or.inl rfl
    · exact Or.inr (List.mem_cons_of_mem _ h)

theorem pickBest_mem (pv : V → ℚ) (g : List V × ℚ) (gs : List (List V × ℚ)) :
    pickBest pv g gs = g ∨ pickBest pv g gs ∈ gs := by
  unfold pickBest
  exact foldl_pick_mem pv gs g

theorem scanCore_ok_elim {verts : List V} {edges : List (V × V)} {pv : V → ℚ}
    {amax : ℚ} {K : ℕ} {r : List V × ℚ}
    (h : scanCore verts edges pv amax K = .ok r) :
    r = ([], 1) ∨ ∃ s ∈ seedsOf verts pv amax K, r = grownOf verts edges pv amax s := by
  unfold scanCore at h
  split at h
  · cases h
  · cases hs : seedsOf verts pv amax K with
    | nil =>
      rw [hs] at h
      simp only [Except.ok.injEq] at h
      exact Or.inl h.symm
    | cons s ss =>
      rw [hs] at h
      simp only [Except.ok.injEq] at h
      rcases pickBest_mem pv (grownOf verts edges pv amax s)
          (ss.map (grownOf verts edges pv amax)) with h2 | h2
      · refine Or.inr ⟨s, List.mem_cons_self _ _, ?_⟩
        rw [← h, h2]
      · rw [List.mem_map] at h2
        obtain ⟨s2, hs2, heq⟩ := h2
        refine Or.inr ⟨s2, List.mem_cons_of_mem _ hs2, ?_⟩
        rw [← h, ← heq]

theorem foldl_max_init_le (f : ℚ → ℚ) (l : List ℚ) (a : ℚ) :
    a ≤ l.foldl (fun acc x => max acc (f x)) a := by
  induction l generalizing a with
  | nil => exact le_refl a
  | cons x xs ih => exact le_trans (le_max_left a (f x)) (ih (max a (f x)))

theorem foldl_max_le (f : ℚ → ℚ) :
    ∀ (l : List ℚ) (c a : ℚ), a ≤ c → (∀ x ∈ l, f x ≤ c) →
      l.foldl (fun acc x => max acc (f x)) a ≤ c
  | [], _, _, ha, _ => ha
  | x :: xs, c, a, ha, hl =>
    foldl_max_le f xs c (max a (f x))
      (max_le ha (hl x (List.mem_cons_self _ _)))
      (fun y hy => hl y (List.mem_cons_of_mem _ hy))

theorem le_foldl_max (f : ℚ → ℚ) :
    ∀ (l : List ℚ) (a x : ℚ), x ∈ l → f x ≤ l.foldl (fun acc y => max acc (f y)) a
  | y :: ys, a, x, hx => by
    rcases List.mem_cons.1 hx with rfl | hx2
    · exact le_trans (le_max_right a (f x)) (foldl_max_init_le f ys (max a (f x)))
    · exact le_foldl_max f ys (max a (f y)) x hx2

theorem scoreExp_mono {pv : V → ℚ} {a1 a2 : ℚ} (h12 : a1 ≤ a2) (S : List V) :
    scoreExp pv a1 S ≤ scoreExp pv a2 S := by
  unfold scoreExp
  refine foldl_max_le _ _ _ _ (foldl_max_init_le _ _ _) ?_
  intro x hx
  refine le_foldl_max _ _ _ _ ?_
  unfold alphasIn at hx ⊢
  rw [List.mem_dedup, List.mem_filter] at hx ⊢
  refine ⟨hx.1, ?_⟩
  exact decide_eq_true (le_trans (of_decide_eq_true hx.2) h12)

/-! ## Helper lemmas on the history store -/

theorem recordAll_fresh :
    ∀ (obs h : List (Observation V)),
      (∀ o ∈ obs, ∀ p ∈ h, sameTripleB p o = false) →
      obs.Pairwise (fun a b => sameTripleB a b = false) →
      recordAll h obs = .ok (h ++ obs)
  | [], h, _, _ => by simp [recordAll]
  | o :: os, h, hfresh, hpw => by
    rw [recordAll]
    have hrec : record h o = .ok (h ++ [o]) := by
      unfold record
      rw [if_neg]
      rw [List.any_eq_true]
      rintro ⟨p, hp, hsame⟩
      rw [hfresh o (List.mem_cons_self _ _) p hp] at hsame
      cases hsame
    rw [hrec]
    dsimp only
    have hfresh2 : ∀ q ∈ os, ∀ p ∈ h ++ [o], sameTripleB p q = false := by
      intro q hq p hp
      rcases List.mem_append.1 hp with hp2 | hp2
      · exact hfresh q (List.mem_cons_of_mem _ hq) p hp2
      · rw [List.mem_singleton] at hp2
        rw [hp2]
        exact (List.pairwise_cons.1 hpw).1 q hq
    rw [recordAll_fresh os (h ++ [o]) hfresh2 (List.pairwise_cons.1 hpw).2]
    simp

theorem query_all_of_uniform {obs : List (Observation V)} {v : V} {f : ℕ}
    (hall : ∀ o ∈ obs, o.vertex = v ∧ o.feature = f) :
    query obs v f (fun _ => true) = obs := by
  unfold query
  rw [List.filter_eq_self]
  intro o ho
  simp [(hall o ho).1, (hall o ho).2]

/-! ## Helper lemmas on estimation and combination -/

theorem dedup_all_eq {l : List ℚ} {c : ℚ} (hne : l ≠ []) (hall : ∀ a ∈ l, a = c) :
    l.dedup = [c] := by
  induction l with
  | nil => cases hne rfl
  | cons a as ih =>
    have ha : a = c := hall a (List.mem_cons_self _ _)
    cases as with
    | nil =>
      rw [ha]
      rfl
    | cons b bs =>
      have hmem : a ∈ b :: bs := by
        rw [ha, ← hall b (List.mem_cons_of_mem _ (List.mem_cons_self _ _))]
        exact List.mem_cons_self _ _
      rw [List.dedup_cons_of_mem hmem]
      exact ih (by simp) (fun x hx => hall x (List.mem_cons_of_mem _ hx))

theorem foldl_min_unit :
    ∀ (l : List ℚ) (a : ℚ), 0 ≤ a → a ≤ 1 → (∀ p ∈ l, 0 ≤ p ∧ p ≤ 1) →
      0 ≤ l.foldl min a ∧ l.foldl min a ≤ 1
  | [], a, h0, h1, _ => ⟨h0, h1⟩
  | x :: xs, a, h0, h1, hl =>
    foldl_min_unit xs (min a x)
      (le_min h0 (hl x (List.mem_cons_self _ _)).1)
      (le_trans (min_le_left a x) h1)
      (fun y hy => hl y (List.mem_cons_of_mem _ hy))

theorem sum_unit_bounds (l : List ℚ) (hl : ∀ p ∈ l, 0 ≤ p ∧ p ≤ 1) :
    0 ≤ l.sum ∧ l.sum ≤ (l.length : ℚ) := by
  induction l with
  | nil => simp
  | cons x xs ih =>
    have hx := hl x (List.mem_cons_self _ _)
    have hxs := ih (fun y hy => hl y (List.mem_cons_of_mem _ hy))
    constructor
    · rw [List.sum_cons]
      exact add_nonneg hx.1 hxs.1
    · rw [List.sum_cons, List.length_cons]
      push_cast
      calc x + xs.sum ≤ 1 + (xs.length : ℚ) := add_le_add hx.2 hxs.2
        _ = (xs.length : ℚ) + 1 := by ring

theorem div_unit_of_bounds {s n : ℚ} (h0 : 0 ≤ s) (hn : s ≤ n) :
    0 ≤ s / n ∧ s / n ≤ 1 := by
  rcases eq_or_lt_of_le (le_trans h0 hn) with h | h
  · rw [← h, div_zero]
    norm_num
  · exact ⟨div_nonneg h0 (le_of_lt h), (div_le_one h).mpr hn⟩

/-! ## Helper lemmas on the analyzer -/

theorem featurePValue_unit {cfg : AnalyzerConfig V} {hist : List (Observation V)}
    {n : ℕ} {es : List (Edge V)} {v : V} {φ : FeatureExtractor V}
    (hest : ∀ x refs p, cfg.estimator x refs = .ok p → 0 ≤ p ∧ p ≤ 1) :
    0 ≤ featurePValue cfg hist n es v φ ∧ featurePValue cfg hist n es v φ ≤ 1 := by
  unfold featurePValue
  split
  · next p hp => exact hest _ _ _ hp
  · norm_num

theorem combinedPValue_unit {cfg : AnalyzerConfig V} {hist : List (Observation V)}
    {n : ℕ} {es : List (Edge V)} {v : V}
    (hest : ∀ x refs p, cfg.estimator x refs = .ok p → 0 ≤ p ∧ p ≤ 1)
    (hcomb : ∀ qs q, (∀ p ∈ qs, 0 ≤ p ∧ p ≤ 1) → cfg.combiner qs = .ok q →
      0 ≤ q ∧ q ≤ 1) :
    0 ≤ combinedPValue cfg hist n es v ∧ combinedPValue cfg hist n es v ≤ 1 := by
  unfold combinedPValue
  split
  · next q hq =>
    refine hcomb _ _ ?_ hq
    intro p hp
    rw [List.mem_map] at hp
    obtain ⟨φ, hφ, rfl⟩ := hp
    exact featurePValue_unit hest
  · norm_num

theorem fitTransform_row_label {cfg : AnalyzerConfig V} {st : AnalyzerState V}
    {es : List (Edge V)} {r : PValueRecord V} (hr : r ∈ (fitTransform cfg st es).1) :
    r.timeWindow = st.windowCount := by
  unfold fitTransform at hr
  dsimp only at hr
  rw [List.mem_map] at hr
  obtain ⟨v, hv, rfl⟩ := hr
  rfl

theorem processAll_windowCount (cfg : AnalyzerConfig V) :
    ∀ (ws : List (List (Edge V))) (st : AnalyzerState V),
      ((processAll cfg st ws).2).windowCount = st.windowCount + ws.length
  | [], st => by simp [processAll]
  | es :: rest, st => by
    simp only [processAll]
    rw [processAll_windowCount cfg rest (fitTransform cfg st es).2]
    simp only [fitTransform, List.length_cons]
    omega

theorem processAll_out_length (cfg : AnalyzerConfig V) :
    ∀ (ws : List (List (Edge V))) (st : AnalyzerState V),
      ((processAll cfg st ws).1).length = ws.length
  | [], _ => rfl
  | es :: rest, st => by
    simp only [processAll, List.length_cons]
    rw [processAll_out_length cfg rest (fitTransform cfg st es).2]

theorem processAll_labels (cfg : AnalyzerConfig V) (ws : List (List (Edge V))) :
    ∀ (st : AnalyzerState V) (i : ℕ) (hi : i < ((processAll cfg st ws).1).length),
      ∀ r ∈ ((processAll cfg st ws).1).get ⟨i, hi⟩,
        r.timeWindow = st.windowCount + i := by
  induction ws with
  | nil =>
    intro st i hi
    simp [processAll] at hi
  | cons es rest ih =>
    intro st i hi
    cases i with
    | zero =>
      intro r hr
      simp only [processAll, List.get_cons_zero] at hr
      rw [Nat.add_zero]
      exact fitTransform_row_label hr
    | succ n =>
      intro r hr
      have hi2 : n < ((processAll cfg (fitTransform cfg st es).2 rest).1).length := by
        simp only [processAll, List.length_cons] at hi
        omega
      have hr2 : r ∈ ((processAll cfg (fitTransform cfg st es).2 rest).1).get ⟨n, hi2⟩ := by
        simp only [processAll, List.get_cons_succ] at hr
        exact hr
      have h2 := ih (fitTransform cfg st es).2 n hi2 r hr2
      rw [h2]
      simp only [fitTransform]
      omega

theorem processAll_history_super (cfg : AnalyzerConfig V) (ws : List (List (Edge V))) :
    ∀ (st : AnalyzerState V) (o : Observation V), o ∈ st.history →
      o ∈ ((processAll cfg st ws).2).history := by
  induction ws with
  | nil =>
    intro st o ho
    simpa [processAll] using ho
  | cons es rest ih =>
    intro st o ho
    simp only [processAll]
    apply ih
    simp only [fitTransform]
    exact List.mem_append.2 (Or.inl ho)

theorem mem_windowObs_aux (cfg : AnalyzerConfig V) (n : ℕ) (es : List (Edge V))
    (φ : FeatureExtractor V) (hφ : φ ∈ cfg.features) :
    ∀ (l : List V) (v : V), v ∈ l →
      (⟨v, n, φ.fid, φ.extract es v⟩ : Observation V) ∈
        l.foldr (fun u acc =>
          (cfg.features.map (fun ψ => ⟨u, n, ψ.fid, ψ.extract es u⟩)) ++ acc) []
  | [], v, hv => absurd hv (List.not_mem_nil v)
  | u :: us, v, hv => by
    rw [List.foldr_cons]
    rcases List.mem_cons.1 hv with rfl | hv2
    · exact List.mem_append.2 (Or.inl (List.mem_map.2 ⟨φ, hφ, rfl⟩))
    · exact List.mem_append.2 (Or.inr (mem_windowObs_aux cfg n es φ hφ us v hv2))

theorem mem_windowObservations_of {cfg : AnalyzerConfig V} {n : ℕ}
    {es : List (Edge V)} {v : V} {φ : FeatureExtractor V}
    (hv : v ∈ presentVertices es) (hφ : φ ∈ cfg.features) :
    (⟨v, n, φ.fid, φ.extract es v⟩ : Observation V) ∈ windowObservations cfg n es := by
  unfold windowObservations
  exact mem_windowObs_aux cfg n es φ hφ (presentVertices es) v hv

theorem processAll_records (cfg : AnalyzerConfig V) (ws : List (List (Edge V))) :
    ∀ (st : AnalyzerState V) (i : ℕ) (hi : i < ws.length) (o : Observation V),
      o ∈ windowObservations cfg (st.windowCount + i) (ws.get ⟨i, hi⟩) →
      o ∈ ((processAll cfg st ws).2).history := by
  induction ws with
  | nil =>
    intro st i hi
    simp at hi
  | cons es rest ih =>
    intro st i hi o ho
    cases i with
    | zero =>
      have ho2 : o ∈ windowObservations cfg st.windowCount es := ho
      simp only [processAll]
      apply processAll_history_super
      simp only [fitTransform]
      exact List.mem_append.2 (Or.inr ho2)
    | succ n =>
      have ho2 : o ∈ windowObservations cfg (st.windowCount + (n + 1))
          (rest.get ⟨n, Nat.lt_of_succ_lt_succ hi⟩) := ho
      simp only [processAll]
      apply ih (fitTransform cfg st es).2 n (Nat.lt_of_succ_lt_succ hi) o
      have hcount : (fitTransform cfg st es).2.windowCount + n = st.windowCount + (n + 1) := by
        simp only [fitTransform]
        omega
      rw [hcount]
      exact ho2

theorem demoEstimator_unit :
    ∀ (x : ℚ) (refs : List (ℚ × ℚ)) (p : ℚ),
      gaussian (fun _ => (1 : ℚ)/2) false x refs = .ok p → 0 ≤ p ∧ p ≤ 1 := by
  intro x refs p hp
  unfold gaussian at hp
  rw [if_neg (by simp)] at hp
  split at hp
  · injection hp with h
    rw [← h]
    norm_num
  · injection hp with h
    rw [← h]
    split <;> norm_num
  · injection hp with h
    rw [← h]
    norm_num

theorem selectedFeature_unit :
    ∀ (qs : List ℚ) (q : ℚ), (∀ p ∈ qs, 0 ≤ p ∧ p ≤ 1) →
      selectedFeatureProbability qs = .ok q → 0 ≤ q ∧ q ≤ 1 := by
  intro qs q hqs hq
  rcases qs with - | ⟨p, - | ⟨p2, rest⟩⟩
  · simp [selectedFeatureProbability] at hq
  · simp only [selectedFeatureProbability, Except.ok.injEq] at hq
    rw [← hq]
    exact hqs p (List.mem_cons_self _ _)
  · simp [selectedFeatureProbability] at hq

/-! ## Claim theorems -/

/-- C1: for every window edge graph and p-value table accepted by
`graph_scan.scan`, the returned vertex set induces a connected subgraph of
the window's edge graph (no isolated components). -/
theorem scan_result_connected (edges : List (V × V)) (rows : List (V × ℚ))
    (amax : ℚ) (K : ℕ) (r : List V × ℚ)
    (h : scanExp edges rows amax K = .ok r) : ConnectedIn edges r.1 := by
  unfold scanExp at h
  rcases scanCore_ok_elim h with rfl | ⟨s, hs, rfl⟩
  · exact connectedIn_nil edges
  · exact (grow_invariant (rows.map Prod.fst) edges (pvOf rows) amax
      (rows.map Prod.fst).length [s] (connectedIn_singleton edges s)
      (fun v hv => by
        rw [List.mem_singleton] at hv
        rw [hv]
        exact seedsOf_pv_le hs)).1

unseal Rat.mul Rat.inv Rat.add Rat.sub in
/-- Witness for C1 at the end-to-end scenario window. -/
theorem scan_result_connected_witness :
    scanExp scnEdges scnRows (1/5) 2 = .ok ([1, 0], 2500) ∧
      ConnectedIn scnEdges [1, 0] :=
  ⟨by decide, scan_result_connected scnEdges scnRows (1/5) 2 ([1, 0], 2500) (by decide)⟩

/-- C2: every vertex of a returned result set has p-value at most
`alpha_max`, and no vertex with p-value above `alpha_max` is ever a seed
(hence never joins a result set, which only grows from seeds by eligible
candidates). -/
theorem scan_respects_alpha_max (edges : List (V × V)) (rows : List (V × ℚ))
    (amax : ℚ) (K : ℕ) (r : List V × ℚ)
    (h : scanExp edges rows amax K = .ok r) :
    (∀ v ∈ r.1, pvOf rows v ≤ amax) ∧
      ∀ s ∈ seedsOf (rows.map Prod.fst) (pvOf rows) amax K, pvOf rows s ≤ amax := by
  constructor
  · unfold scanExp at h
    rcases scanCore_ok_elim h with rfl | ⟨s, hs, rfl⟩
    · intro v hv
      cases hv
    · exact (grow_invariant (rows.map Prod.fst) edges (pvOf rows) amax
        (rows.map Prod.fst).length [s] (connectedIn_singleton edges s)
        (fun v hv => by
          rw [List.mem_singleton] at hv
          rw [hv]
          exact seedsOf_pv_le hs)).2
  · intro s hs
    exact seedsOf_pv_le hs

unseal Rat.mul Rat.inv Rat.add Rat.sub in
/-- Witness for C2 at the counterexample window of C9. -/
theorem scan_respects_alpha_max_witness :
    scanExp monoEdges monoRows (4/5) 2 = .ok ([2, 3, 0], 125/64) ∧
      (∀ v ∈ [2, 3, 0], pvOf monoRows v ≤ 4/5) ∧
      (∀ s ∈ seedsOf (monoRows.map Prod.fst) (pvOf monoRows) (4/5) 2,
        pvOf monoRows s ≤ 4/5) :=
  ⟨by decide,
   scan_respects_alpha_max monoEdges monoRows (4/5) 2 ([2, 3, 0], 125/64) (by decide)⟩

/-- C3: for every processed window, `fit_transform` returns a table with
exactly one row per vertex present in the window, each row carrying the
vertex name, the window index the analyzer assigns, and a combined
p-value in `[0,1]` (under the contracts of the configured estimator and
combiner). -/
theorem fitTransform_output_shape (cfg : AnalyzerConfig V) (st : AnalyzerState V)
    (es : List (Edge V))
    (hest : ∀ x refs p, cfg.estimator x refs = .ok p → 0 ≤ p ∧ p ≤ 1)
    (hcomb : ∀ qs q, (∀ p ∈ qs, 0 ≤ p ∧ p ≤ 1) → cfg.combiner qs = .ok q →
      0 ≤ q ∧ q ≤ 1) :
    ((fitTransform cfg st es).1).map PValueRecord.name = presentVertices es ∧
      (presentVertices es).Nodup ∧
      ∀ r ∈ (fitTransform cfg st es).1,
        r.timeWindow = st.windowCount ∧ 0 ≤ r.pValue ∧ r.pValue ≤ 1 := by
  refine ⟨?_, List.nodup_dedup _, ?_⟩
  · unfold fitTransform
    dsimp only
    rw [List.map_map]
    exact List.map_id _
  · intro r hr
    unfold fitTransform at hr
    dsimp only at hr
    rw [List.mem_map] at hr
    obtain ⟨v, hv, rfl⟩ := hr
    exact ⟨rfl, combinedPValue_unit hest hcomb⟩

/-- Witness for C3 on the worked analyzer composition and window. -/
theorem fitTransform_output_shape_witness :
    (∀ x refs p, demoConfig.estimator x refs = .ok p → 0 ≤ p ∧ p ≤ 1) ∧
      (∀ qs q, (∀ p ∈ qs, 0 ≤ p ∧ p ≤ 1) → demoConfig.combiner qs = .ok q →
        0 ≤ q ∧ q ≤ 1) ∧
      (((fitTransform demoConfig initState demoWindow).1).map PValueRecord.name =
          presentVertices demoWindow ∧
        (presentVertices demoWindow).Nodup ∧
        ∀ r ∈ (fitTransform demoConfig initState demoWindow).1,
          r.timeWindow = (initState : AnalyzerState ℕ).windowCount ∧
            0 ≤ r.pValue ∧ r.pValue ≤ 1) :=
  ⟨demoEstimator_unit, fun qs q h hq => selectedFeature_unit qs q h hq,
   fitTransform_output_shape demoConfig initState demoWindow demoEstimator_unit
     (fun qs q h hq => selectedFeature_unit qs q h hq)⟩

unseal Rat.mul Rat.inv Rat.add Rat.sub in
/-- C4: on the scenario window (`A..E` as `0..4`, edges `A–B`, `B–C`,
`C–D`, p-values `0.01, 0.02, 0.5, 0.9, 0.6`, `alpha_max = 1/5`, `K = 2`)
the scan seeds exactly from `A` and `B`, returns exactly the result set
`{A, B}`, adding `C` does not improve the scan statistic, and the
returned score is strictly positive. -/
theorem scan_scenario_exact :
    seedsOf (scnRows.map Prod.fst) (pvOf scnRows) (1/5) 2 = [0, 1] ∧
      scanExp scnEdges scnRows (1/5) 2 = .ok ([1, 0], 2500) ∧
      ([1, 0] : List ℕ).toFinset = ({0, 1} : Finset ℕ) ∧
      scanScore scnEdges scnRows (1/5) 2 = .ok ([1, 0], Real.log ((2500 : ℚ) : ℝ)) ∧
      0 < Real.log ((2500 : ℚ) : ℝ) ∧
      scoreExp (pvOf scnRows) (1/5) [2, 1, 0] ≤ scoreExp (pvOf scnRows) (1/5) [1, 0] := by
  refine ⟨by decide, by decide, by decide, ?_, ?_, by decide⟩
  · unfold scanScore
    rw [show scanExp scnEdges scnRows (1/5) 2 = .ok ([1, 0], 2500) from by decide]
    rfl
  · apply Real.log_pos
    norm_num

/-- C5: the scan fails with `EmptyGraphError` exactly when the window has
no vertices; a nonempty window with no eligible vertex yields the empty
result with score `0` (representation `1`); and the scan is total — it
returns a result or raises `EmptyGraphError`, nothing else. -/
theorem scan_failure_modes (edges : List (V × V)) (rows : List (V × ℚ))
    (amax : ℚ) (K : ℕ) :
    (scanExp edges rows amax K = .error .emptyGraph ↔ rows = []) ∧
      (rows ≠ [] → (∀ v ∈ rows.map Prod.fst, ¬ pvOf rows v ≤ amax) →
        scanExp edges rows amax K = .ok ([], 1) ∧
          scanScore edges rows amax K = .ok ([], 0)) ∧
      ((∃ r, scanExp edges rows amax K = .ok r) ∨
        scanExp edges rows amax K = .error .emptyGraph) := by
  refine ⟨⟨?_, ?_⟩, ?_, ?_⟩
  · intro h
    unfold scanExp scanCore at h
    split at h
    · next hempty =>
      rw [List.isEmpty_iff] at hempty
      exact List.map_eq_nil_iff.1 hempty
    · next hne2 =>
      cases hs : seedsOf (rows.map Prod.fst) (pvOf rows) amax K with
      | nil => rw [hs] at h; cases h
      | cons s ss => rw [hs] at h; cases h
  · rintro rfl
    rfl
  · intro hne hnone
    have hexp : scanExp edges rows amax K = .ok ([], 1) := by
      unfold scanExp scanCore
      have hel : eligibleOf (rows.map Prod.fst) (pvOf rows) amax = [] := by
        unfold eligibleOf
        rw [List.filter_eq_nil_iff]
        intro v hv
        simp only [decide_eq_true_eq]
        exact hnone v hv
      have hseeds : seedsOf (rows.map Prod.fst) (pvOf rows) amax K = [] := by
        unfold seedsOf
        rw [hel, show rankByP (pvOf rows) ([] : List V) = [] from rfl]
        exact List.take_nil
      have hvne : ¬ (rows.map Prod.fst).isEmpty = true := by
        rw [List.isEmpty_iff, List.map_eq_nil_iff]
        exact hne
      rw [if_neg hvne, hseeds]
    refine ⟨hexp, ?_⟩
    unfold scanScore
    rw [hexp]
    simp [Except.map, Real.log_one]
  · unfold scanExp scanCore
    by_cases hv : (rows.map Prod.fst).isEmpty = true
    · rw [if_pos hv]
      exact Or.inr rfl
    · rw [if_neg hv]
      cases hs : seedsOf (rows.map Prod.fst) (pvOf rows) amax K with
      | nil => exact Or.inl ⟨([], 1), rfl⟩
      | cons s ss => exact Or.inl ⟨_, rfl⟩

unseal Rat.mul Rat.inv Rat.add Rat.sub in
/-- Witness for C5 on a nonempty window with no eligible vertex. -/
theorem scan_failure_modes_witness :
    noEligRows ≠ [] ∧
      (∀ v ∈ noEligRows.map Prod.fst, ¬ pvOf noEligRows v ≤ 1/5) ∧
      (scanExp ([] : List (ℕ × ℕ)) noEligRows (1/5) 2 = .ok ([], 1) ∧
        scanScore ([] : List (ℕ × ℕ)) noEligRows (1/5) 2 = .ok ([], 0)) :=
  ⟨by decide, by decide,
   (scan_failure_modes ([] : List (ℕ × ℕ)) noEligRows (1/5) 2).2.1
     (by decide) (by decide)⟩

/-- C6: recording an observation whose (vertex, window, feature) triple is
already stored fails with `DuplicateObservationError`; recording `N`
pairwise distinct triples succeeds, and — for triples of one vertex and
feature — querying with the any-window predicate returns exactly `N`
observations. -/
theorem history_store_contract (h : List (Observation V)) (o : Observation V)
    (obs : List (Observation V)) (v : V) (f : ℕ)
    (hdup : ∃ p ∈ h, sameTripleB p o = true)
    (hdistinct : obs.Pairwise (fun a b => sameTripleB a b = false))
    (huniform : ∀ q ∈ obs, q.vertex = v ∧ q.feature = f) :
    record h o = .error .duplicateObservation ∧
      recordAll [] obs = .ok obs ∧
      (query obs v f (fun _ => true)).length = obs.length := by
  refine ⟨?_, ?_, ?_⟩
  · have hc : h.any (fun p => sameTripleB p o) = true := List.any_eq_true.2 hdup
    unfold record
    rw [if_pos hc]
  · have hr := recordAll_fresh obs []
      (fun q _ p hp => absurd hp (List.not_mem_nil p)) hdistinct
    simpa using hr
  · rw [query_all_of_uniform huniform]

/-- Witness for C6 with one duplicate and three distinct observations. -/
theorem history_store_contract_witness :
    (∃ p ∈ demoStore, sameTripleB p demoDup = true) ∧
      demoFresh.Pairwise (fun a b => sameTripleB a b = false) ∧
      (∀ q ∈ demoFresh, q.vertex = 1 ∧ q.feature = 0) ∧
      (record demoStore demoDup = .error .duplicateObservation ∧
        recordAll [] demoFresh = .ok demoFresh ∧
        (query demoFresh 1 0 (fun _ => true)).length = demoFresh.length) :=
  ⟨by decide, by decide, by decide,
   history_store_contract demoStore demoDup demoFresh 1 0
     (by decide) (by decide) (by decide)⟩

/-- C7: on every nonempty weighted reference set whose values are all
identical (weighted standard deviation zero), the graceful Gaussian
estimator consults no z-score — it returns `1` when the current value
equals the common reference value and `0` when it differs — and every
p-value it returns there lies in `[0,1]`. -/
theorem gaussian_sigma_zero (tail : ℚ → ℚ) (x c : ℚ) (refs : List (ℚ × ℚ))
    (hne : refs ≠ []) (hall : ∀ r ∈ refs, r.1 = c) :
    gaussian tail false x refs = .ok (if x = c then 1 else 0) ∧
      ∀ p, gaussian tail false x refs = .ok p → 0 ≤ p ∧ p ≤ 1 := by
  have hd : (refs.map Prod.fst).dedup = [c] := by
    apply dedup_all_eq
    · rw [Ne, List.map_eq_nil_iff]
      exact hne
    · intro a ha
      rw [List.mem_map] at ha
      obtain ⟨rr, hrr, rfl⟩ := ha
      exact hall rr hrr
  have heq : gaussian tail false x refs = .ok (if x = c then 1 else 0) := by
    unfold gaussian
    rw [if_neg (by simp), hd]
  refine ⟨heq, ?_⟩
  intro p hp
  rw [heq] at hp
  injection hp with h2
  rw [← h2]
  split <;> norm_num

unseal Rat.mul Rat.inv Rat.add Rat.sub in
/-- Witness for C7 on two identically-valued weighted references. -/
theorem gaussian_sigma_zero_witness :
    ([((3 : ℚ), (1 : ℚ)), (3, 2)] ≠ ([] : List (ℚ × ℚ))) ∧
      (∀ r ∈ [((3 : ℚ), (1 : ℚ)), (3, 2)], r.1 = 3) ∧
      (gaussian (fun _ => 0) false 5 [((3 : ℚ), (1 : ℚ)), (3, 2)] =
          .ok (if (5 : ℚ) = 3 then 1 else 0) ∧
        ∀ p, gaussian (fun _ => 0) false 5 [((3 : ℚ), (1 : ℚ)), (3, 2)] = .ok p →
          0 ≤ p ∧ p ≤ 1) :=
  ⟨by decide, by decide,
   gaussian_sigma_zero (fun _ => 0) 5 3 [((3 : ℚ), (1 : ℚ)), (3, 2)]
     (by decide) (by decide)⟩

/-- C8: every combiner returns a value in `[0,1]` (the transcendental
survival functions of Fisher's and Stouffer's methods being given as
parameters with their mathematical range); the pass-through combiner
returns a single p-value unchanged and fails with `ConfigurationError`
whenever more than one p-value is supplied. -/
theorem combiners_unit_and_identity (ps : List ℚ) (hps : ∀ p ∈ ps, 0 ≤ p ∧ p ≤ 1)
    (sf nsf lnQ probit : ℚ → ℚ) (sqrtk : ℚ)
    (hsf : ∀ y, 0 ≤ sf y ∧ sf y ≤ 1) (hnsf : ∀ y, 0 ≤ nsf y ∧ nsf y ≤ 1) :
    (∀ q, selectedFeatureProbability ps = .ok q → 0 ≤ q ∧ q ≤ 1) ∧
      (∀ q, minimumProbability ps = .ok q → 0 ≤ q ∧ q ≤ 1) ∧
      (∀ q, averageProbability ps = .ok q → 0 ≤ q ∧ q ≤ 1) ∧
      (∀ q, fisherMethod sf lnQ ps = .ok q → 0 ≤ q ∧ q ≤ 1) ∧
      (∀ q, stouffersMethod nsf probit sqrtk ps = .ok q → 0 ≤ q ∧ q ≤ 1) ∧
      (∀ p : ℚ, selectedFeatureProbability [p] = .ok p) ∧
      (∀ (p q : ℚ) (rest : List ℚ),
        selectedFeatureProbability (p :: q :: rest) = .error .invalidComposition) := by
  refine ⟨fun q hq => selectedFeature_unit ps q hps hq, ?_, ?_, ?_, ?_,
    fun p => rfl, fun p q rest => rfl⟩
  · intro q hq
    unfold minimumProbability at hq
    injection hq with h2
    rw [← h2]
    exact foldl_min_unit ps 1 (by norm_num) (le_refl 1) hps
  · intro q hq
    unfold averageProbability at hq
    injection hq with h2
    rw [← h2]
    obtain ⟨h0, h1⟩ := sum_unit_bounds ps hps
    exact div_unit_of_bounds h0 h1
  · intro q hq
    unfold fisherMethod at hq
    injection hq with h2
    rw [← h2]
    exact hsf _
  · intro q hq
    unfold stouffersMethod at hq
    injection hq with h2
    rw [← h2]
    exact hnsf _

unseal Rat.mul Rat.inv Rat.add Rat.sub in
/-- Witness for C8 on a concrete two-element p-value list. -/
theorem combiners_unit_and_identity_witness :
    (∀ p ∈ [(1 : ℚ)/2, 1/3], 0 ≤ p ∧ p ≤ 1) ∧
      (∀ y : ℚ, 0 ≤ (fun _ : ℚ => (0 : ℚ)) y ∧ (fun _ : ℚ => (0 : ℚ)) y ≤ 1) ∧
      (∀ y : ℚ, 0 ≤ (fun _ : ℚ => (1 : ℚ)) y ∧ (fun _ : ℚ => (1 : ℚ)) y ≤ 1) ∧
      ((∀ q, selectedFeatureProbability [(1 : ℚ)/2, 1/3] = .ok q → 0 ≤ q ∧ q ≤ 1) ∧
        (∀ q, minimumProbability [(1 : ℚ)/2, 1/3] = .ok q → 0 ≤ q ∧ q ≤ 1) ∧
        (∀ q, averageProbability [(1 : ℚ)/2, 1/3] = .ok q → 0 ≤ q ∧ q ≤ 1) ∧
        (∀ q, fisherMethod (fun _ => 0) id [(1 : ℚ)/2, 1/3] = .ok q → 0 ≤ q ∧ q ≤ 1) ∧
        (∀ q, stouffersMethod (fun _ => 1) id 1 [(1 : ℚ)/2, 1/3] = .ok q →
          0 ≤ q ∧ q ≤ 1) ∧
        (∀ p : ℚ, selectedFeatureProbability [p] = .ok p) ∧
        (∀ (p q : ℚ) (rest : List ℚ),
          selectedFeatureProbability (p :: q :: rest) = .error .invalidComposition)) :=
  ⟨by decide, fun y => by norm_num, fun y => by norm_num,
   combiners_unit_and_identity [(1 : ℚ)/2, 1/3] (by decide)
     (fun _ => 0) (fun _ => 1) id id 1
     (fun y => by norm_num) (fun y => by norm_num)⟩

unseal Rat.mul Rat.inv Rat.add Rat.sub in
/-- C9 counterexample: holding the window, the p-value table and `K`
fixed, raising `alpha_max` from `4/5` to `19/20` strictly lowers the
score the scan returns, so the returned score is not monotone in
`alpha_max`. -/
theorem scan_alpha_monotone_counterexample :
    (4/5 : ℚ) < 19/20 ∧
      scanExp monoEdges monoRows (4/5) 2 = .ok ([2, 3, 0], 125/64) ∧
      scanExp monoEdges monoRows (19/20) 2 = .ok ([3], 5/3) ∧
      Real.log ((5/3 : ℚ) : ℝ) < Real.log ((125/64 : ℚ) : ℝ) := by
  refine ⟨by decide, by decide, by decide, ?_⟩
  apply Real.log_lt_log
  · norm_num
  · norm_num

/-- C9 amended: the scan's search space is monotone in `alpha_max` — any
subset admissible at the lower ceiling stays admissible at the higher
one, and its scan-statistic score never decreases; the score of the
single subset the greedy search happens to return is not monotone. -/
theorem scan_search_space_monotone (rows : List (V × ℚ)) (a1 a2 : ℚ)
    (S : List V) (h12 : a1 ≤ a2) :
    ((∀ v ∈ S, pvOf rows v ≤ a1) → ∀ v ∈ S, pvOf rows v ≤ a2) ∧
      scoreExp (pvOf rows) a1 S ≤ scoreExp (pvOf rows) a2 S :=
  ⟨fun h v hv => le_trans (h v hv) h12, scoreExp_mono h12 S⟩

unseal Rat.mul Rat.inv Rat.add Rat.sub in
/-- Witness for the amended C9 on the counterexample window. -/
theorem scan_search_space_monotone_witness :
    (4/5 : ℚ) ≤ 19/20 ∧
      (((∀ v ∈ [2, 3, 0], pvOf monoRows v ≤ 4/5) →
          ∀ v ∈ [2, 3, 0], pvOf monoRows v ≤ 19/20) ∧
        scoreExp (pvOf monoRows) (4/5) [2, 3, 0] ≤
          scoreExp (pvOf monoRows) (19/20) [2, 3, 0]) :=
  ⟨by decide, scan_search_space_monotone monoRows (4/5) (19/20) [2, 3, 0] (by decide)⟩

/-- C10: processing a stream with `fit_transform` labels the rows of the
`n`-th call (counting from `1`) with window index `n − 1`, assigns the
indices sequentially from `0`, records every processed window — the final
evaluation call included — into the history, and advances the window
counter on every call; the model's analyzer exposes `fitTransform` as its
single per-window operation. -/
theorem analyzer_window_indexing (cfg : AnalyzerConfig V) (ws : List (List (Edge V)))
    (i : ℕ) (hi : i < ws.length) :
    ((processAll cfg initState ws).2).windowCount = ws.length ∧
      ((processAll cfg initState ws).1).length = ws.length ∧
      (∀ (hi2 : i < ((processAll cfg initState ws).1).length),
        ∀ r ∈ ((processAll cfg initState ws).1).get ⟨i, hi2⟩, r.timeWindow = i) ∧
      (∀ v ∈ presentVertices (ws.get ⟨i, hi⟩), ∀ φ ∈ cfg.features,
        (⟨v, i, φ.fid, φ.extract (ws.get ⟨i, hi⟩) v⟩ : Observation V) ∈
          ((processAll cfg initState ws).2).history) := by
  refine ⟨?_, processAll_out_length cfg ws initState, ?_, ?_⟩
  · rw [processAll_windowCount cfg ws initState]
    simp [initState]
  · intro hi2 r hr
    have h := processAll_labels cfg ws initState i hi2 r hr
    simpa [initState] using h
  · intro v hv φ hφ
    apply processAll_records cfg ws initState i hi
    have h := @mem_windowObservations_of V _ cfg i (ws.get ⟨i, hi⟩) v φ hv hφ
    simpa [initState] using h

/-- Witness for C10 on the two-window demo stream, at the second call. -/
theorem analyzer_window_indexing_witness :
    1 < demoStream.length ∧
      (((processAll demoConfig initState demoStream).2).windowCount =
          demoStream.length ∧
        ((processAll demoConfig initState demoStream).1).length =
          demoStream.length ∧
        (∀ (hi2 : 1 < ((processAll demoConfig initState demoStream).1).length),
          ∀ r ∈ ((processAll demoConfig initState demoStream).1).get ⟨1, hi2⟩,
            r.timeWindow = 1) ∧
        (∀ v ∈ presentVertices (demoStream.get ⟨1, by decide⟩),
          ∀ φ ∈ demoConfig.features,
            (⟨v, 1, φ.fid, φ.extract (demoStream.get ⟨1, by decide⟩) v⟩ :
                Observation ℕ) ∈
              ((processAll demoConfig initState demoStream).2).history)) :=
  ⟨by decide, analyzer_window_indexing demoConfig demoStream 1 (by decide)⟩

end SfGad
